import Mathlib

set_option maxRecDepth 10000
set_option linter.unusedVariables false

/-!
Verification of the marked-block environment-file patcher
(`scripts/update-prompts.py`).

File content is modelled as a `List Char` (Python `str`).  The script's
operations — `str.split("\n")`, `"\n".join`, the substring test `in`,
`str.endswith("\n")`, base64 encoding, the key transform — are embedded as
executable Lean functions below, and the claims about the patcher are
proved about these definitions.
-/

namespace G2I

/-- Python `sub in s` (contiguous substring test). -/
def containsStr (s sub : List Char) : Bool :=
  s.tails.any (fun t => sub.isPrefixOf t)

/-- Python `s.split("\n")`: split on newline; always at least one piece
(the recursive result is never empty, so `headI`/`tail` lose nothing). -/
def splitLines : List Char → List (List Char)
  | [] => [[]]
  | c :: cs =>
    let r := splitLines cs
    if c = '\n' then [] :: r else (c :: r.headI) :: r.tail

/-- Python `"\n".join(lines)`. -/
def joinLines : List (List Char) → List Char
  | [] => []
  | [l] => l
  | l :: ls => l ++ '\n' :: joinLines ls

/-- Python `s.endswith("\n")`. -/
def endsWithNewline (s : List Char) : Bool :=
  s.getLast? == some '\n'

/-- The `START_MARKER` constant of the script. -/
def START_MARKER : List Char :=
  ("# --- AUTO-GENERATED PROMPTS START (DO NOT EDIT MANUALLY) ---").toList

/-- The `END_MARKER` constant of the script. -/
def END_MARKER : List Char :=
  ("# --- AUTO-GENERATED PROMPTS END ---").toList

/-- The `new_section` string built in `update_env_file`:
`"\n".join([START_MARKER, *prompt_lines, END_MARKER])`. -/
def newSection (promptLines : List (List Char)) : List Char :=
  joinLines (START_MARKER :: promptLines ++ [END_MARKER])

/-- The `for line in lines` loop of `update_env_file` (replace branch):
a line containing the start marker is replaced by the whole new section and
starts skipping; a line containing the end marker stops skipping and is
dropped; other lines are kept unless skipping. -/
def replaceLoop (sec : List Char) : List (List Char) → Bool → List (List Char)
  | [], _ => []
  | l :: ls, skip =>
    if containsStr l START_MARKER then sec :: replaceLoop sec ls true
    else if containsStr l END_MARKER then replaceLoop sec ls false
    else if skip then replaceLoop sec ls skip
    else l :: replaceLoop sec ls skip

/-- The pure content transform performed by `update_env_file` between the
read and the write: replace the section when both markers occur in the
content (substring test), otherwise append the section at the end. -/
def update_env_content (promptLines : List (List Char)) (content : List Char) :
    List Char :=
  if containsStr content START_MARKER && containsStr content END_MARKER then
    joinLines (replaceLoop (newSection promptLines) (splitLines content) false)
  else
    (if endsWithNewline content then content else content ++ ['\n'])
      ++ '\n' :: (newSection promptLines ++ ['\n'])

/-- Model of `update_env_file`, with the target file modelled as `Option (List Char)`
(`none` = the path does not exist).  Returns the resulting file state and
whether the run succeeded: a missing file is reported (`sys.exit(1)`) with
no write, otherwise the transformed content is written back. -/
def update_env_file (file : Option (List Char)) (promptLines : List (List Char)) :
    Option (List Char) × Bool :=
  match file with
  | none => (none, false)
  | some content => (some (update_env_content promptLines content), true)

/-- ASCII model of Python `str.upper()` on one character, as applied by
`encode_prompts` to the keys. -/
def upperChar (c : Char) : Char :=
  if 97 ≤ c.toNat ∧ c.toNat ≤ 122 then Char.ofNat (c.toNat - 32) else c

/-- The key transform `key.upper().replace("-", "_")` from `encode_prompts`. -/
def envKey (key : List Char) : List Char :=
  (key.map upperChar).map (fun c => if c = '-' then '_' else c)

/-- The base64 alphabet, in order. -/
def b64alphabet : List Char :=
  ("ABCDEFGHIJKLMNOPQRSTUVWXYZabcdefghijklmnopqrstuvwxyz0123456789+/").toList

/-- Character for a 6-bit value. -/
def b64char (n : Nat) : Char := b64alphabet.getD n ('A')

/-- Standard base64 encoding of a byte sequence (model of
`base64.b64encode`), with `=` padding. -/
def b64encode : List Nat → List Char
  | [] => []
  | [a] => [b64char (a / 4), b64char (a % 4 * 16), '=', '=']
  | [a, b] =>
      [b64char (a / 4), b64char (a % 4 * 16 + b / 16), b64char (b % 16 * 4), '=']
  | a :: b :: c :: rest =>
      b64char (a / 4) :: b64char (a % 4 * 16 + b / 16) ::
        b64char (b % 16 * 4 + c / 64) :: b64char (c % 64) :: b64encode rest

/-- Six-bit value of a base64 character. -/
def b64val (c : Char) : Nat := b64alphabet.indexOf c

/-- Decode a padding-stripped base64 character sequence back to bytes. -/
def b64decodeCore : List Char → List Nat
  | a :: b :: c :: d :: rest =>
      (b64val a * 4 + b64val b / 16) :: (b64val b % 16 * 16 + b64val c / 4) ::
        (b64val c % 4 * 64 + b64val d) :: b64decodeCore rest
  | [a, b, c] => [b64val a * 4 + b64val b / 16, b64val b % 16 * 16 + b64val c / 4]
  | [a, b] => [b64val a * 4 + b64val b / 16]
  | _ => []

/-- Standard base64 decoding (model of `base64.b64decode`). -/
def b64decode (s : List Char) : List Nat :=
  b64decodeCore (s.filter (fun c => c != '='))

/-- UTF-8 encoding of one code point. -/
def utf8Char (c : Char) : List Nat :=
  if c.toNat < 128 then [c.toNat]
  else if c.toNat < 2048 then [192 + c.toNat / 64, 128 + c.toNat % 64]
  else if c.toNat < 65536 then
    [224 + c.toNat / 4096, 128 + c.toNat / 64 % 64, 128 + c.toNat % 64]
  else
    [240 + c.toNat / 262144, 128 + c.toNat / 4096 % 64, 128 + c.toNat / 64 % 64,
      128 + c.toNat % 64]

/-- UTF-8 encoding of a string (Python `value.encode()`). -/
def utf8Encode (s : List Char) : List Nat := s.flatMap utf8Char

/-- One output line of `encode_prompts`, of the form ENV_KEY=base64. -/
def encodeLine (key value : List Char) : List Char :=
  envKey key ++ '=' :: b64encode (utf8Encode value)

/-- Model of `encode_prompts`: the YAML mapping is modelled as an ordered
association list; each entry yields one encoded line. -/
def encode_prompts (prompts : List (List Char × List Char)) : List (List Char) :=
  prompts.map (fun kv => encodeLine kv.1 kv.2)

/-- Everything after the first `=` of a line. -/
def afterFirstEq : List Char → List Char
  | [] => []
  | c :: cs => if c = '=' then cs else afterFirstEq cs

/-- Python whitespace, for `str.strip()`. -/
def isPySpace (c : Char) : Bool :=
  c == ' ' || c == '\t' || c == '\n' || c == '\r' || c == '\x0b' || c == '\x0c'

/-- Python `line.strip()`. -/
def pyStrip (l : List Char) : List Char :=
  ((l.dropWhile isPySpace).reverse.dropWhile isPySpace).reverse

/-- The sentinel-line classifier described by the specification
(exact match of the entire trimmed line against a constant), to be
compared with the substring test the code actually performs. -/
def specIsSentinel (l : List Char) : Bool :=
  pyStrip l == START_MARKER || pyStrip l == END_MARKER

/-- A line containing neither sentinel string as a substring. -/
def noMarkers (l : List Char) : Prop :=
  containsStr l START_MARKER = false ∧ containsStr l END_MARKER = false

instance (l : List Char) : Decidable (noMarkers l) := by
  unfold noMarkers
  infer_instance

/-- The upper-snake-case key transform exactly as the specification words
it: every `-` becomes `_`, every other character is upper-cased. -/
def specUpperSnake (key : List Char) : List Char :=
  key.map (fun c => if c = '-' then '_' else upperChar c)

theorem splitLines_ne_nil (s : List Char) : splitLines s ≠ [] := by
  induction s with
  | nil => simp [splitLines]
  | cons c cs ih =>
    simp only [splitLines]
    split <;> simp

theorem joinLines_cons (l : List Char) (ls : List (List Char)) (h : ls ≠ []) :
    joinLines (l :: ls) = l ++ '\n' :: joinLines ls := by
  cases ls with
  | nil => exact absurd rfl h
  | cons m ms => rfl

theorem joinLines_append (xs ys : List (List Char)) (hx : xs ≠ []) (hy : ys ≠ []) :
    joinLines (xs ++ ys) = joinLines xs ++ '\n' :: joinLines ys := by
  induction xs with
  | nil => exact absurd rfl hx
  | cons l xs ih =>
    cases xs with
    | nil => simpa using joinLines_cons l ys hy
    | cons m ms =>
      rw [List.cons_append, joinLines_cons _ _ (by simp),
        joinLines_cons l (m :: ms) (by simp), ih (by simp)]
      simp

theorem joinLines_splitLines (s : List Char) : joinLines (splitLines s) = s := by
  induction s with
  | nil => rfl
  | cons c cs ih =>
    by_cases hc : c = '\n'
    · rw [show splitLines (c :: cs) = [] :: splitLines cs from by
        simp [splitLines, hc]]
      rw [joinLines_cons _ _ (splitLines_ne_nil cs), ih, hc]
      rfl
    · rcases heq : splitLines cs with _ | ⟨l, ls⟩
      · exact absurd heq (splitLines_ne_nil cs)
      · rw [show splitLines (c :: cs) = (c :: l) :: ls from by
          simp [splitLines, hc, heq]]
        rw [heq] at ih
        cases ls with
        | nil => rw [show joinLines [c :: l] = c :: l from rfl]
                 rw [show joinLines [l] = l from rfl] at ih
                 rw [ih]
        | cons m ms =>
          rw [joinLines_cons _ _ (by simp), List.cons_append]
          rw [joinLines_cons _ _ (by simp)] at ih
          rw [ih]

theorem splitLines_no_newline (s : List Char) : ∀ l ∈ splitLines s, ('\n') ∉ l := by
  induction s with
  | nil => simp [splitLines]
  | cons c cs ih =>
    by_cases hc : c = '\n'
    · rw [show splitLines (c :: cs) = [] :: splitLines cs from by
        simp [splitLines, hc]]
      intro l hl
      rcases List.mem_cons.mp hl with h | h
      · simp [h]
      · exact ih l h
    · rcases heq : splitLines cs with _ | ⟨l, ls⟩
      · exact absurd heq (splitLines_ne_nil cs)
      · rw [show splitLines (c :: cs) = (c :: l) :: ls from by
          simp [splitLines, hc, heq]]
        intro x hx
        rcases List.mem_cons.mp hx with h | h
        · subst h
          intro hmem
          rcases List.mem_cons.mp hmem with h | h
          · exact hc h.symm
          · exact ih l (heq ▸ List.mem_cons_self l ls) h
        · exact ih x (heq ▸ List.mem_cons_of_mem l h)

theorem splitLines_singleton (l : List Char) (h : ('\n') ∉ l) :
    splitLines l = [l] := by
  induction l with
  | nil => rfl
  | cons c cs ih =>
    have hc : c ≠ '\n' := by intro hc; exact h (by simp [hc])
    have ih2 : splitLines cs = [cs] :=
      ih (by intro hm; exact h (List.mem_cons_of_mem c hm))
    simp [splitLines, hc, ih2]

theorem splitLines_line_append (l rest : List Char) (h : ('\n') ∉ l) :
    splitLines (l ++ '\n' :: rest) = l :: splitLines rest := by
  induction l with
  | nil => simp [splitLines]
  | cons c cs ih =>
    have hc : c ≠ '\n' := by intro hc; exact h (by simp [hc])
    have ih2 := ih (by intro hm; exact h (List.mem_cons_of_mem c hm))
    rw [List.cons_append]
    simp [splitLines, hc, ih2]

theorem splitLines_joinLines (ls : List (List Char)) (h : ls ≠ [])
    (hnl : ∀ l ∈ ls, ('\n') ∉ l) : splitLines (joinLines ls) = ls := by
  induction ls with
  | nil => exact absurd rfl h
  | cons l ms ih =>
    cases ms with
    | nil => simpa [joinLines] using splitLines_singleton l (hnl l (by simp))
    | cons m ms' =>
      rw [joinLines_cons _ _ (by simp),
        splitLines_line_append _ _ (hnl l (by simp)),
        ih (by simp) (fun x hx => hnl x (List.mem_cons_of_mem l hx))]

theorem isPrefixOf_iff_exists (a b : List Char) :
    a.isPrefixOf b = true ↔ ∃ t, b = a ++ t := by
  induction a generalizing b with
  | nil => simp [List.isPrefixOf]
  | cons c cs ih =>
    cases b with
    | nil => simp [List.isPrefixOf]
    | cons d ds =>
      simp only [List.isPrefixOf, Bool.and_eq_true, beq_iff_eq, ih,
        List.cons_append, List.cons.injEq]
      constructor
      · rintro ⟨rfl, t, rfl⟩
        exact ⟨t, rfl, rfl⟩
      · rintro ⟨t, rfl, rfl⟩
        exact ⟨rfl, t, rfl⟩

theorem containsStr_iff (s sub : List Char) :
    containsStr s sub = true ↔ ∃ x y, s = x ++ (sub ++ y) := by
  unfold containsStr
  rw [List.any_eq_true]
  constructor
  · rintro ⟨t, ht, hp⟩
    obtain ⟨x, hx⟩ := (List.mem_tails _ _).mp ht
    obtain ⟨y, hy⟩ := (isPrefixOf_iff_exists sub t).mp hp
    exact ⟨x, y, by rw [← hx, hy]⟩
  · rintro ⟨x, y, rfl⟩
    refine ⟨sub ++ y, (List.mem_tails _ _).mpr ⟨x, rfl⟩, ?_⟩
    exact (isPrefixOf_iff_exists _ _).mpr ⟨y, rfl⟩

theorem containsStr_of_parts (x y sub : List Char) :
    containsStr (x ++ (sub ++ y)) sub = true :=
  (containsStr_iff _ _).mpr ⟨x, y, rfl⟩

theorem containsStr_self (s : List Char) : containsStr s s = true := by
  simpa using containsStr_of_parts [] [] s

theorem containsStr_trans {a b c : List Char} (h1 : containsStr b a = true)
    (h2 : containsStr c b = true) : containsStr c a = true := by
  obtain ⟨x, y, rfl⟩ := (containsStr_iff _ _).mp h1
  obtain ⟨u, w, rfl⟩ := (containsStr_iff _ _).mp h2
  refine (containsStr_iff _ _).mpr ⟨u ++ x, y ++ w, ?_⟩
  simp

theorem mem_joinLines_containsStr {l : List Char} {ls : List (List Char)}
    (h : l ∈ ls) : containsStr (joinLines ls) l = true := by
  induction ls with
  | nil => cases h
  | cons m ms ih =>
    rcases List.mem_cons.mp h with h | h
    · subst h
      cases ms with
      | nil => exact containsStr_self l
      | cons m' ms' =>
        rw [joinLines_cons _ _ (by simp)]
        simpa using containsStr_of_parts [] ('\n' :: joinLines (m' :: ms')) l
    · have hms : ms ≠ [] := by
        intro hcon
        rw [hcon] at h
        cases h
      rw [joinLines_cons _ _ hms]
      obtain ⟨x, y, hxy⟩ := (containsStr_iff _ _).mp (ih h)
      refine (containsStr_iff _ _).mpr ⟨m ++ '\n' :: x, y, ?_⟩
      simp [hxy]

theorem mem_splitLines_not_containsStr {s M l : List Char}
    (hM : containsStr s M = false) (hl : l ∈ splitLines s) :
    containsStr l M = false := by
  by_contra hcon
  rw [Bool.not_eq_false] at hcon
  have hs : containsStr s l = true := by
    have := mem_joinLines_containsStr hl
    rwa [joinLines_splitLines] at this
  rw [containsStr_trans hcon hs] at hM
  cases hM

theorem getLast?_ne_newline {l : List Char} (h : ('\n') ∉ l) :
    (l.getLast? == some '\n') = false := by
  induction l with
  | nil => rfl
  | cons c cs ih =>
    cases cs with
    | nil =>
      have hc : c ≠ '\n' := by intro hc; exact h (by simp [hc])
      simp [List.getLast?, hc]
    | cons d ds =>
      rw [show (c :: d :: ds).getLast? = (d :: ds).getLast? from by
        simp [List.getLast?]]
      exact ih (fun hm => h (List.mem_cons_of_mem c hm))

theorem getLast?_cons_some (c : Char) (cs : List Char) :
    ∃ x, (c :: cs).getLast? = some x := by
  induction cs generalizing c with
  | nil => exact ⟨c, rfl⟩
  | cons d ds ih =>
    obtain ⟨x, hx⟩ := ih d
    exact ⟨x, by rw [show (c :: d :: ds).getLast? = (d :: ds).getLast? from by
      simp [List.getLast?], hx]⟩

theorem endsWithNewline_join_concat (ys : List (List Char)) (l : List Char)
    (hy : ys ≠ []) (hl : ('\n') ∉ l) :
    endsWithNewline (joinLines (ys ++ [l])) = (l == []) := by
  rw [joinLines_append ys [l] hy (by simp)]
  rw [show joinLines [l] = l from rfl]
  cases l with
  | nil =>
    unfold endsWithNewline
    rw [show joinLines ys ++ '\n' :: ([] : List Char)
        = joinLines ys ++ ['\n'] from rfl]
    rw [List.getLast?_concat]
    rfl
  | cons c cs =>
    unfold endsWithNewline
    rw [List.getLast?_append]
    rw [show ('\n' :: c :: cs).getLast? = (c :: cs).getLast? from by
      simp [List.getLast?]]
    obtain ⟨x, hx⟩ := getLast?_cons_some c cs
    have h2 := getLast?_ne_newline (l := c :: cs) hl
    rw [hx] at h2 ⊢
    simpa using h2

theorem newline_not_mem_START : ('\n') ∉ START_MARKER := by decide

theorem newline_not_mem_END : ('\n') ∉ END_MARKER := by decide

theorem END_not_contains_START : containsStr END_MARKER START_MARKER = false := by
  decide

theorem joinLines_flatten (xs ys zs : List (List Char)) (hz : zs ≠ []) :
    joinLines (xs ++ joinLines zs :: ys) = joinLines (xs ++ (zs ++ ys)) := by
  induction xs with
  | nil =>
    cases ys with
    | nil => simp [joinLines]
    | cons y ys' =>
      rw [List.nil_append, List.nil_append, joinLines_cons _ _ (by simp),
        joinLines_append zs (y :: ys') hz (by simp)]
  | cons x xs' ih =>
    rw [List.cons_append, List.cons_append, joinLines_cons _ _ (by simp),
      joinLines_cons _ _ (by simp [hz]), ih]

theorem replaceLoop_cons_start {l : List Char}
    (h : containsStr l START_MARKER = true) (sec : List Char)
    (ls : List (List Char)) (skip : Bool) :
    replaceLoop sec (l :: ls) skip = sec :: replaceLoop sec ls true := by
  simp [replaceLoop, h]

theorem replaceLoop_cons_end {l : List Char}
    (h1 : containsStr l START_MARKER = false)
    (h2 : containsStr l END_MARKER = true) (sec : List Char)
    (ls : List (List Char)) (skip : Bool) :
    replaceLoop sec (l :: ls) skip = replaceLoop sec ls false := by
  simp [replaceLoop, h1, h2]

theorem replaceLoop_skip_all {ms : List (List Char)}
    (h : ∀ l ∈ ms, noMarkers l) (sec : List Char) (rest : List (List Char)) :
    replaceLoop sec (ms ++ rest) true = replaceLoop sec rest true := by
  induction ms with
  | nil => rfl
  | cons m ms' ih =>
    obtain ⟨h1, h2⟩ := h m (by simp)
    rw [List.cons_append]
    simp only [replaceLoop, h1, h2]
    exact ih (fun l hl => h l (List.mem_cons_of_mem m hl))

theorem replaceLoop_emit_all {ps : List (List Char)}
    (h : ∀ l ∈ ps, noMarkers l) (sec : List Char) (rest : List (List Char)) :
    replaceLoop sec (ps ++ rest) false = ps ++ replaceLoop sec rest false := by
  induction ps with
  | nil => rfl
  | cons p ps' ih =>
    obtain ⟨h1, h2⟩ := h p (by simp)
    rw [List.cons_append]
    simp only [replaceLoop, h1, h2]
    rw [ih (fun l hl => h l (List.mem_cons_of_mem p hl))]
    simp

theorem replaceLoop_wf {pre mid post : List (List Char)} {s e sec : List Char}
    (hpre : ∀ l ∈ pre, noMarkers l) (hmid : ∀ l ∈ mid, noMarkers l)
    (hpost : ∀ l ∈ post, noMarkers l)
    (hs : containsStr s START_MARKER = true)
    (he2 : containsStr e END_MARKER = true)
    (he1 : containsStr e START_MARKER = false) :
    replaceLoop sec (pre ++ s :: (mid ++ e :: post)) false = pre ++ sec :: post := by
  rw [replaceLoop_emit_all hpre, replaceLoop_cons_start hs,
    replaceLoop_skip_all hmid, replaceLoop_cons_end he1 he2]
  have : replaceLoop sec post false = post := by
    have := replaceLoop_emit_all hpost sec []
    simpa [replaceLoop] using this
  rw [this]

/-- Central lemma for the replace branch: a content made of a prefix, a
line containing the start marker, a middle, a line containing the end
marker (and not the start marker), and a suffix — none of the other lines
containing a marker or a newline — is rewritten to prefix, exact start
sentinel, the new lines, exact end sentinel, suffix. -/
theorem update_env_content_wf {L pre mid post : List (List Char)}
    {s e : List Char}
    (hpre : ∀ l ∈ pre, noMarkers l ∧ ('\n') ∉ l)
    (hmid : ∀ l ∈ mid, noMarkers l ∧ ('\n') ∉ l)
    (hpost : ∀ l ∈ post, noMarkers l ∧ ('\n') ∉ l)
    (hs : containsStr s START_MARKER = true) (hsnl : ('\n') ∉ s)
    (he2 : containsStr e END_MARKER = true)
    (he1 : containsStr e START_MARKER = false) (henl : ('\n') ∉ e) :
    update_env_content L (joinLines (pre ++ s :: (mid ++ e :: post)))
      = joinLines (pre ++ START_MARKER :: (L ++ END_MARKER :: post)) := by
  have hnl : ∀ l ∈ pre ++ s :: (mid ++ e :: post), ('\n') ∉ l := by
    intro l hl
    rcases List.mem_append.mp hl with h | h
    · exact (hpre l h).2
    · rcases List.mem_cons.mp h with h | h
      · exact h ▸ hsnl
      · rcases List.mem_append.mp h with h | h
        · exact (hmid l h).2
        · rcases List.mem_cons.mp h with h | h
          · exact h ▸ henl
          · exact (hpost l h).2
  have lines_eq : splitLines (joinLines (pre ++ s :: (mid ++ e :: post)))
      = pre ++ s :: (mid ++ e :: post) :=
    splitLines_joinLines _ (by simp) hnl
  have hasS : containsStr (joinLines (pre ++ s :: (mid ++ e :: post)))
      START_MARKER = true :=
    containsStr_trans hs (mem_joinLines_containsStr (by simp))
  have hasE : containsStr (joinLines (pre ++ s :: (mid ++ e :: post)))
      END_MARKER = true :=
    containsStr_trans he2 (mem_joinLines_containsStr (by simp))
  unfold update_env_content
  rw [hasS, hasE]
  simp only [Bool.and_self, if_true, lines_eq]
  rw [replaceLoop_wf (fun l hl => (hpre l hl).1) (fun l hl => (hmid l hl).1)
    (fun l hl => (hpost l hl).1) hs he2 he1]
  have : newSection L = joinLines (START_MARKER :: L ++ [END_MARKER]) := rfl
  rw [this, joinLines_flatten pre post (START_MARKER :: L ++ [END_MARKER])
    (by simp)]
  congr 1
  simp

theorem containsStr_nil_START : containsStr [] START_MARKER = false := by decide

theorem containsStr_nil_END : containsStr [] END_MARKER = false := by decide

/-- The absent branch of `update_env_file`, for content already ending in a
newline. -/
theorem update_env_content_absent {L : List (List Char)} {F : List Char}
    (h1 : containsStr F START_MARKER = false)
    (h2 : containsStr F END_MARKER = false)
    (h3 : endsWithNewline F = true) :
    update_env_content L F = F ++ '\n' :: (newSection L ++ [('\n')]) := by
  unfold update_env_content
  rw [h1]
  simp [h3]

/-- The output of the absent branch, rewritten as a joined line list (the
original lines, the exact block, and a final empty line). -/
theorem update_env_content_absent_lines {L : List (List Char)} {F : List Char}
    (h1 : containsStr F START_MARKER = false)
    (h2 : containsStr F END_MARKER = false)
    (h3 : endsWithNewline F = true) :
    update_env_content L F
      = joinLines (splitLines F ++ START_MARKER :: (L ++ END_MARKER :: [[]])) := by
  rw [update_env_content_absent h1 h2 h3]
  rw [show START_MARKER :: (L ++ END_MARKER :: [[]])
      = (START_MARKER :: L ++ [END_MARKER]) ++ [[]] from by simp]
  rw [joinLines_append _ _ (splitLines_ne_nil F) (by simp),
    joinLines_append (START_MARKER :: L ++ [END_MARKER]) [[]] (by simp) (by simp),
    joinLines_splitLines]
  rfl

theorem ofNat_sub32_ne : ∀ n, n < 123 → 97 ≤ n →
    (Char.ofNat (n - 32) ≠ '-' ∧ Char.ofNat (n - 32) ≠ '=') := by decide

theorem upperChar_ne_dash {c : Char} (h : c ≠ '-') : upperChar c ≠ '-' := by
  unfold upperChar
  split
  · rename_i hc
    exact (ofNat_sub32_ne c.toNat (by omega) hc.1).1
  · exact h

theorem upperChar_ne_eq {c : Char} (h : c ≠ '=') : upperChar c ≠ '=' := by
  unfold upperChar
  split
  · rename_i hc
    exact (ofNat_sub32_ne c.toNat (by omega) hc.1).2
  · exact h

theorem envKey_no_eq {key : List Char} (h : ('=') ∉ key) : ('=') ∉ envKey key := by
  unfold envKey
  rw [List.map_map]
  intro hmem
  obtain ⟨c, hc, heq⟩ := List.mem_map.mp hmem
  have hcne : c ≠ '=' := fun hcon => h (hcon ▸ hc)
  by_cases hdash : upperChar c = '-'
  · simp only [Function.comp_apply, hdash, if_pos] at heq
    exact absurd heq (by decide)
  · simp only [Function.comp_apply, if_neg hdash] at heq
    exact upperChar_ne_eq hcne heq

theorem afterFirstEq_append {k rest : List Char} (h : ('=') ∉ k) :
    afterFirstEq (k ++ '=' :: rest) = rest := by
  induction k with
  | nil => simp [afterFirstEq]
  | cons c cs ih =>
    have hc : c ≠ '=' := fun hcon => h (by simp [hcon])
    rw [List.cons_append]
    unfold afterFirstEq
    rw [if_neg hc]
    exact ih (fun hm => h (List.mem_cons_of_mem c hm))

theorem char_toNat_lt (c : Char) : c.toNat < 1114112 := by
  rcases c.valid with h | h
  · exact Nat.lt_trans h (by norm_num)
  · exact h.2

theorem utf8Char_lt (c : Char) : ∀ x ∈ utf8Char c, x < 256 := by
  have hc := char_toNat_lt c
  unfold utf8Char
  split
  · intro x hx
    simp only [List.mem_singleton] at hx
    omega
  · split
    · intro x hx
      simp only [List.mem_cons, List.mem_singleton, List.not_mem_nil, or_false] at hx
      rcases hx with rfl | rfl <;> omega
    · split
      · intro x hx
        simp only [List.mem_cons, List.not_mem_nil, or_false] at hx
        rcases hx with rfl | rfl | rfl <;> omega
      · intro x hx
        simp only [List.mem_cons, List.not_mem_nil, or_false] at hx
        rcases hx with rfl | rfl | rfl | rfl <;> omega

theorem utf8Encode_lt (v : List Char) : ∀ x ∈ utf8Encode v, x < 256 := by
  intro x hx
  obtain ⟨c, _, hc⟩ := List.mem_flatMap.mp hx
  exact utf8Char_lt c x hc

theorem b64val_b64char : ∀ n, n < 64 → b64val (b64char n) = n := by decide

theorem b64char_ne_pad : ∀ n, n < 64 → (b64char n != '=') = true := by decide

theorem b64_roundtrip (bs : List Nat) (h : ∀ x ∈ bs, x < 256) :
    b64decode (b64encode bs) = bs := by
  induction bs using b64encode.induct with
  | case1 => rfl
  | case2 a =>
    have ha : a < 256 := h a (by simp)
    have h1 : a / 4 < 64 := by omega
    have h2 : a % 4 * 16 < 64 := by omega
    have hfil : (b64encode [a]).filter (fun c => c != '=')
        = [b64char (a / 4), b64char (a % 4 * 16)] := by
      unfold b64encode
      simp [List.filter_cons, b64char_ne_pad _ h1, b64char_ne_pad _ h2]
    unfold b64decode
    rw [hfil]
    rw [show b64decodeCore [b64char (a / 4), b64char (a % 4 * 16)]
        = [b64val (b64char (a / 4)) * 4 + b64val (b64char (a % 4 * 16)) / 16]
        from rfl]
    rw [b64val_b64char _ h1, b64val_b64char _ h2]
    congr 1
    omega
  | case3 a b =>
    have ha : a < 256 := h a (by simp)
    have hb : b < 256 := h b (by simp)
    have h1 : a / 4 < 64 := by omega
    have h2 : a % 4 * 16 + b / 16 < 64 := by omega
    have h3 : b % 16 * 4 < 64 := by omega
    have hfil : (b64encode [a, b]).filter (fun c => c != '=')
        = [b64char (a / 4), b64char (a % 4 * 16 + b / 16), b64char (b % 16 * 4)] := by
      unfold b64encode
      simp [List.filter_cons, b64char_ne_pad _ h1, b64char_ne_pad _ h2,
        b64char_ne_pad _ h3]
    unfold b64decode
    rw [hfil]
    rw [show b64decodeCore
          [b64char (a / 4), b64char (a % 4 * 16 + b / 16), b64char (b % 16 * 4)]
        = [b64val (b64char (a / 4)) * 4
              + b64val (b64char (a % 4 * 16 + b / 16)) / 16,
            b64val (b64char (a % 4 * 16 + b / 16)) % 16 * 16
              + b64val (b64char (b % 16 * 4)) / 4] from rfl]
    rw [b64val_b64char _ h1, b64val_b64char _ h2, b64val_b64char _ h3]
    congr 1
    · omega
    · congr 1
      omega
  | case4 a b c rest ih =>
    have ha : a < 256 := h a (by simp)
    have hb : b < 256 := h b (by simp)
    have hc : c < 256 := h c (by simp)
    have h1 : a / 4 < 64 := by omega
    have h2 : a % 4 * 16 + b / 16 < 64 := by omega
    have h3 : b % 16 * 4 + c / 64 < 64 := by omega
    have h4 : c % 64 < 64 := by omega
    have ihr := ih (fun x hx => h x (by simp [hx]))
    have hfil : (b64encode (a :: b :: c :: rest)).filter (fun c => c != '=')
        = b64char (a / 4) :: b64char (a % 4 * 16 + b / 16)
            :: b64char (b % 16 * 4 + c / 64) :: b64char (c % 64)
            :: (b64encode rest).filter (fun c => c != '=') := by
      rw [show b64encode (a :: b :: c :: rest)
          = b64char (a / 4) :: b64char (a % 4 * 16 + b / 16)
              :: b64char (b % 16 * 4 + c / 64) :: b64char (c % 64)
              :: b64encode rest from rfl]
      simp only [List.filter_cons, b64char_ne_pad _ h1, b64char_ne_pad _ h2,
        b64char_ne_pad _ h3, b64char_ne_pad _ h4, if_true]
    unfold b64decode
    rw [hfil]
    rw [show b64decodeCore (b64char (a / 4) :: b64char (a % 4 * 16 + b / 16)
            :: b64char (b % 16 * 4 + c / 64) :: b64char (c % 64)
            :: (b64encode rest).filter (fun c => c != '='))
        = (b64val (b64char (a / 4)) * 4
              + b64val (b64char (a % 4 * 16 + b / 16)) / 16)
            :: (b64val (b64char (a % 4 * 16 + b / 16)) % 16 * 16
              + b64val (b64char (b % 16 * 4 + c / 64)) / 4)
            :: (b64val (b64char (b % 16 * 4 + c / 64)) % 4 * 64
              + b64val (b64char (c % 64)))
            :: b64decodeCore ((b64encode rest).filter (fun c => c != '='))
        from rfl]
    rw [b64val_b64char _ h1, b64val_b64char _ h2, b64val_b64char _ h3,
      b64val_b64char _ h4]
    unfold b64decode at ihr
    rw [ihr]
    congr 1
    · omega
    · congr 1
      · omega
      · congr 1
        omega

theorem block_lines_no_newline {X pre post : List (List Char)}
    (hpre : ∀ l ∈ pre, noMarkers l ∧ ('\n') ∉ l)
    (hX : ∀ l ∈ X, noMarkers l ∧ ('\n') ∉ l)
    (hpost : ∀ l ∈ post, noMarkers l ∧ ('\n') ∉ l) :
    ∀ l ∈ pre ++ START_MARKER :: (X ++ END_MARKER :: post), ('\n') ∉ l := by
  intro l hl
  rcases List.mem_append.mp hl with h | h
  · exact (hpre l h).2
  · rcases List.mem_cons.mp h with h | h
    · exact h ▸ newline_not_mem_START
    · rcases List.mem_append.mp h with h | h
      · exact (hX l h).2
      · rcases List.mem_cons.mp h with h | h
        · exact h ▸ newline_not_mem_END
        · exact (hpost l h).2

/-- C1: the script has no malformed-block handling.  On a file that
contains exactly one sentinel (the start sentinel alone), `update_env_file`
does not fail: it takes the append branch and writes back modified content
(and leaves the stray start sentinel in place), instead of reporting a
malformed block and leaving the file unchanged. -/
theorem claim1_single_sentinel_appends_and_writes :
    containsStr (START_MARKER ++ [('\n')]) START_MARKER = true
    ∧ containsStr (START_MARKER ++ [('\n')]) END_MARKER = false
    ∧ update_env_file (some (START_MARKER ++ [('\n')])) [("FOO=YmFy").toList]
        = (some ((START_MARKER ++ [('\n')]) ++ '\n' ::
            (newSection [("FOO=YmFy").toList] ++ [('\n')])), true)
    ∧ (START_MARKER ++ [('\n')]) ++ '\n' ::
          (newSection [("FOO=YmFy").toList] ++ [('\n')])
        ≠ START_MARKER ++ [('\n')] := by
  refine ⟨by decide, by decide, by decide, by decide⟩

/-- C2 counterexample: a line that merely contains the end sentinel as a
proper substring (`"stale " ++ END_MARKER ++ " tail"`), whose trimmed text
is not a sentinel constant, is nonetheless consumed as the end sentinel:
it terminates the skip region, so the following line `B=2` survives into
the replaced output.  This refutes exact-trimmed-line classification. -/
theorem claim2_counterexample :
    specIsSentinel (("stale ").toList ++ END_MARKER ++ (" tail").toList) = false
    ∧ update_env_content [("N=1").toList]
        (joinLines [START_MARKER, ("OLD=x").toList,
          ("stale ").toList ++ END_MARKER ++ (" tail").toList, ("B=2").toList])
        = joinLines [newSection [("N=1").toList], ("B=2").toList] := by
  refine ⟨by decide, by decide⟩

/-- C2 amended: the block locator classifies a line as a sentinel exactly
when the line contains the sentinel string as a substring — even when the
trimmed line is not equal to the sentinel constant.  Lines `s` and `e`
that properly contain the markers act as the block boundaries, and the
block between them is replaced. -/
theorem claim2_substring_matching {L pre mid post : List (List Char)}
    {s e : List Char}
    (hpre : ∀ l ∈ pre, noMarkers l ∧ ('\n') ∉ l)
    (hmid : ∀ l ∈ mid, noMarkers l ∧ ('\n') ∉ l)
    (hpost : ∀ l ∈ post, noMarkers l ∧ ('\n') ∉ l)
    (hs : containsStr s START_MARKER = true) (hsnl : ('\n') ∉ s)
    (hsx : specIsSentinel s = false)
    (he2 : containsStr e END_MARKER = true)
    (he1 : containsStr e START_MARKER = false) (henl : ('\n') ∉ e)
    (hex : specIsSentinel e = false) :
    update_env_content L (joinLines (pre ++ s :: (mid ++ e :: post)))
      = joinLines (pre ++ START_MARKER :: (L ++ END_MARKER :: post)) :=
  update_env_content_wf hpre hmid hpost hs hsnl he2 he1 henl

theorem claim2_substring_matching_witness :
    update_env_content [("N=1").toList]
      (joinLines ([("A=1").toList]
        ++ (("x ").toList ++ START_MARKER) :: ([("OLD=x").toList]
        ++ (("y ").toList ++ END_MARKER) :: [("B=2").toList])))
      = joinLines ([("A=1").toList]
          ++ START_MARKER :: ([("N=1").toList]
          ++ END_MARKER :: [("B=2").toList])) :=
  claim2_substring_matching (by decide) (by decide) (by decide) (by decide)
    (by decide) (by decide) (by decide) (by decide) (by decide) (by decide)

/-- C3: idempotence on a file with a well-formed managed block — patching
twice with the same encoded lines equals patching once. -/
theorem claim3_idempotent_present {L pre mid post : List (List Char)}
    (hL : ∀ l ∈ L, noMarkers l ∧ ('\n') ∉ l)
    (hpre : ∀ l ∈ pre, noMarkers l ∧ ('\n') ∉ l)
    (hmid : ∀ l ∈ mid, noMarkers l ∧ ('\n') ∉ l)
    (hpost : ∀ l ∈ post, noMarkers l ∧ ('\n') ∉ l) :
    update_env_content L (update_env_content L
        (joinLines (pre ++ START_MARKER :: (mid ++ END_MARKER :: post))))
      = update_env_content L
          (joinLines (pre ++ START_MARKER :: (mid ++ END_MARKER :: post))) := by
  rw [update_env_content_wf hpre hmid hpost (containsStr_self _)
      newline_not_mem_START (containsStr_self _) END_not_contains_START
      newline_not_mem_END,
    update_env_content_wf hpre hL hpost (containsStr_self _)
      newline_not_mem_START (containsStr_self _) END_not_contains_START
      newline_not_mem_END]

theorem claim3_idempotent_present_witness :
    update_env_content [("N=1").toList] (update_env_content [("N=1").toList]
        (joinLines ([("A=1").toList]
          ++ START_MARKER :: ([("OLD=x").toList] ++ END_MARKER :: [[]]))))
      = update_env_content [("N=1").toList]
          (joinLines ([("A=1").toList]
            ++ START_MARKER :: ([("OLD=x").toList] ++ END_MARKER :: [[]]))) :=
  claim3_idempotent_present (by decide) (by decide) (by decide) (by decide)

/-- C4: replacement frame — patching a file with a well-formed block keeps
every line before the start sentinel and after the end sentinel unchanged,
emits the start sentinel, exactly the new lines, and the end sentinel, and
no old line strictly between the sentinels survives into the output. -/
theorem claim4_replacement_frame {L pre mid post : List (List Char)}
    (hL : ∀ l ∈ L, noMarkers l ∧ ('\n') ∉ l)
    (hpre : ∀ l ∈ pre, noMarkers l ∧ ('\n') ∉ l)
    (hmid : ∀ l ∈ mid, noMarkers l ∧ ('\n') ∉ l)
    (hpost : ∀ l ∈ post, noMarkers l ∧ ('\n') ∉ l) :
    update_env_content L
        (joinLines (pre ++ START_MARKER :: (mid ++ END_MARKER :: post)))
      = joinLines (pre ++ START_MARKER :: (L ++ END_MARKER :: post))
    ∧ ∀ m ∈ mid, m ∉ pre → m ∉ L → m ∉ post →
        m ∉ splitLines (update_env_content L
          (joinLines (pre ++ START_MARKER :: (mid ++ END_MARKER :: post)))) := by
  have heq := update_env_content_wf (L := L) hpre hmid hpost
    (containsStr_self _) newline_not_mem_START (containsStr_self _)
    END_not_contains_START newline_not_mem_END
  refine ⟨heq, ?_⟩
  intro m hm hp hl hq
  rw [heq, splitLines_joinLines _ (by simp)
    (block_lines_no_newline hpre hL hpost)]
  intro hmem
  rcases List.mem_append.mp hmem with h | h
  · exact hp h
  · rcases List.mem_cons.mp h with h | h
    · have hfalse := (hmid m hm).1.1
      rw [h, containsStr_self] at hfalse
      exact Bool.noConfusion hfalse
    · rcases List.mem_append.mp h with h | h
      · exact hl h
      · rcases List.mem_cons.mp h with h | h
        · have hfalse := (hmid m hm).1.2
          rw [h, containsStr_self] at hfalse
          exact Bool.noConfusion hfalse
        · exact hq h

theorem claim4_replacement_frame_witness :
    update_env_content [("N=1").toList]
        (joinLines ([("A=1").toList]
          ++ START_MARKER :: ([("OLD=x").toList] ++ END_MARKER :: [[]])))
      = joinLines ([("A=1").toList]
          ++ START_MARKER :: ([("N=1").toList] ++ END_MARKER :: [[]])) :=
  (claim4_replacement_frame (by decide) (by decide) (by decide) (by decide)).1

/-- C5: on a file containing neither sentinel, the patcher appends the
block at the end: one extra newline separates the prior content from the
block (with an additional line terminator first when the content did not
end in a newline), and exactly one newline follows the block. -/
theorem claim5_absent_append {L : List (List Char)} {F : List Char}
    (h1 : containsStr F START_MARKER = false)
    (h2 : containsStr F END_MARKER = false) :
    (endsWithNewline F = true →
      update_env_content L F = F ++ '\n' :: (newSection L ++ [('\n')]))
    ∧ (endsWithNewline F = false →
      update_env_content L F = F ++ '\n' :: '\n' :: (newSection L ++ [('\n')])) := by
  refine ⟨fun h3 => update_env_content_absent h1 h2 h3, fun h3 => ?_⟩
  unfold update_env_content
  rw [h1]
  simp [h3]

theorem claim5_absent_append_witness :
    update_env_content [("FOO=YmFy").toList] (("A=1\n").toList)
      = ("A=1\n\n").toList ++ START_MARKER ++ ("\nFOO=YmFy\n").toList
          ++ END_MARKER ++ [('\n')] := by
  rw [(claim5_absent_append (by decide) (by decide)).1 (by decide)]
  decide

/-- C6: decoding the base64 payload after the first `=` of the produced
line recovers the UTF-8 bytes of the original value, and an empty value
yields an empty payload. -/
theorem claim6_base64_roundtrip (prompts : List (List Char × List Char))
    (key value : List Char) (hkv : (key, value) ∈ prompts)
    (hk : ('=') ∉ key) :
    encodeLine key value ∈ encode_prompts prompts
    ∧ b64decode (afterFirstEq (encodeLine key value)) = utf8Encode value
    ∧ (value = [] → afterFirstEq (encodeLine key value) = []) := by
  refine ⟨List.mem_map.mpr ⟨(key, value), hkv, rfl⟩, ?_, ?_⟩
  · unfold encodeLine
    rw [afterFirstEq_append (envKey_no_eq hk),
      b64_roundtrip _ (utf8Encode_lt value)]
  · intro hv
    subst hv
    unfold encodeLine
    rw [afterFirstEq_append (envKey_no_eq hk)]
    rfl

theorem claim6_base64_roundtrip_witness :
    encodeLine (("system-prompt").toList) (("bar").toList)
      ∈ encode_prompts [((("system-prompt").toList), ("bar").toList)]
    ∧ b64decode (afterFirstEq
        (encodeLine (("system-prompt").toList) (("bar").toList)))
        = utf8Encode (("bar").toList)
    ∧ ((("bar").toList) = [] → afterFirstEq
        (encodeLine (("system-prompt").toList) (("bar").toList)) = []) :=
  claim6_base64_roundtrip _ _ _ (by simp) (by decide)

/-- C7: the env-var key of a produced line is the upper-snake-case
transform of the prompt-set key (every `-` becomes `_`, everything else
upper-cased); in particular `system-prompt` becomes `SYSTEM_PROMPT`. -/
theorem claim7_key_transform :
    (∀ key : List Char, envKey key = specUpperSnake key)
    ∧ envKey (("system-prompt").toList) = ("SYSTEM_PROMPT").toList := by
  constructor
  · intro key
    unfold envKey specUpperSnake
    rw [List.map_map]
    refine List.map_congr_left ?_
    intro a _
    by_cases hdash : a = '-'
    · subst hdash
      decide
    · simp only [Function.comp_apply, if_neg hdash,
        if_neg (upperChar_ne_dash hdash)]
  · decide

/-- C8: patching a nonexistent target is a reported failure with no write:
the filesystem state is unchanged (still no file) and the run fails. -/
theorem claim8_missing_target (L : List (List Char)) :
    update_env_file none L = (none, false) := rfl

/-- C9: idempotence from the absent case — appending the block and then
patching again replaces the appended block with an identical one. -/
theorem claim9_idempotent_absent {L : List (List Char)} {F : List Char}
    (hL : ∀ l ∈ L, noMarkers l ∧ ('\n') ∉ l)
    (h1 : containsStr F START_MARKER = false)
    (h2 : containsStr F END_MARKER = false)
    (h3 : endsWithNewline F = true) :
    update_env_content L (update_env_content L F) = update_env_content L F := by
  have hpre : ∀ l ∈ splitLines F, noMarkers l ∧ ('\n') ∉ l := fun l hl =>
    ⟨⟨mem_splitLines_not_containsStr h1 hl,
        mem_splitLines_not_containsStr h2 hl⟩,
      splitLines_no_newline F l hl⟩
  have hpost : ∀ l ∈ [([] : List Char)], noMarkers l ∧ ('\n') ∉ l := by
    intro l hl
    simp only [List.mem_singleton] at hl
    subst hl
    exact ⟨⟨containsStr_nil_START, containsStr_nil_END⟩, by simp⟩
  rw [update_env_content_absent_lines h1 h2 h3]
  exact update_env_content_wf hpre hL hpost (containsStr_self _)
    newline_not_mem_START (containsStr_self _) END_not_contains_START
    newline_not_mem_END

theorem claim9_idempotent_absent_witness :
    update_env_content [("FOO=YmFy").toList]
        (update_env_content [("FOO=YmFy").toList] (("A=1\n").toList))
      = update_env_content [("FOO=YmFy").toList] (("A=1\n").toList) :=
  claim9_idempotent_absent (by decide) (by decide) (by decide) (by decide)

/-- C10: in the replacement case the patcher preserves the trailing-newline
status of the file — the output ends with a newline exactly when the input
did — and the line lists of input and output have the same lines `pre`
before the start sentinel and `post` after the end sentinel, so no blank
line (nor any other line) is added or removed outside the managed block. -/
theorem claim10_trailing_newline {L pre mid post : List (List Char)}
    (hL : ∀ l ∈ L, noMarkers l ∧ ('\n') ∉ l)
    (hpre : ∀ l ∈ pre, noMarkers l ∧ ('\n') ∉ l)
    (hmid : ∀ l ∈ mid, noMarkers l ∧ ('\n') ∉ l)
    (hpost : ∀ l ∈ post, noMarkers l ∧ ('\n') ∉ l) :
    endsWithNewline (update_env_content L
        (joinLines (pre ++ START_MARKER :: (mid ++ END_MARKER :: post))))
      = endsWithNewline
          (joinLines (pre ++ START_MARKER :: (mid ++ END_MARKER :: post)))
    ∧ splitLines (joinLines (pre ++ START_MARKER :: (mid ++ END_MARKER :: post)))
        = pre ++ START_MARKER :: (mid ++ END_MARKER :: post)
    ∧ splitLines (update_env_content L
          (joinLines (pre ++ START_MARKER :: (mid ++ END_MARKER :: post))))
        = pre ++ START_MARKER :: (L ++ END_MARKER :: post) := by
  refine ⟨?_, ?_, ?_⟩
  case refine_2 =>
    exact splitLines_joinLines _ (by simp)
      (block_lines_no_newline hpre hmid hpost)
  case refine_3 =>
    rw [update_env_content_wf hpre hmid hpost (containsStr_self _)
      newline_not_mem_START (containsStr_self _) END_not_contains_START
      newline_not_mem_END]
    exact splitLines_joinLines _ (by simp)
      (block_lines_no_newline hpre hL hpost)
  rw [update_env_content_wf hpre hmid hpost (containsStr_self _)
    newline_not_mem_START (containsStr_self _) END_not_contains_START
    newline_not_mem_END]
  rcases List.eq_nil_or_concat post with hpost0 | ⟨qs, y, hqy⟩
  · subst hpost0
    rw [show pre ++ START_MARKER :: (mid ++ END_MARKER :: ([] : List (List Char)))
        = (pre ++ START_MARKER :: mid) ++ [END_MARKER] from by simp]
    rw [show pre ++ START_MARKER :: (L ++ END_MARKER :: ([] : List (List Char)))
        = (pre ++ START_MARKER :: L) ++ [END_MARKER] from by simp]
    rw [endsWithNewline_join_concat _ _ (by simp) newline_not_mem_END,
      endsWithNewline_join_concat _ _ (by simp) newline_not_mem_END]
  · subst hqy
    have hy : ('\n') ∉ y := (hpost y (by simp [List.concat_eq_append])).2
    rw [show pre ++ START_MARKER :: (mid ++ END_MARKER :: qs.concat y)
        = (pre ++ START_MARKER :: (mid ++ END_MARKER :: qs)) ++ [y] from by
      simp [List.concat_eq_append]]
    rw [show pre ++ START_MARKER :: (L ++ END_MARKER :: qs.concat y)
        = (pre ++ START_MARKER :: (L ++ END_MARKER :: qs)) ++ [y] from by
      simp [List.concat_eq_append]]
    rw [endsWithNewline_join_concat _ _ (by simp) hy,
      endsWithNewline_join_concat _ _ (by simp) hy]

theorem claim10_trailing_newline_witness :
    endsWithNewline (update_env_content [("N=1").toList]
        (joinLines ([("A=1").toList]
          ++ START_MARKER :: ([("OLD=x").toList] ++ END_MARKER :: [[]]))))
      = endsWithNewline
          (joinLines ([("A=1").toList]
            ++ START_MARKER :: ([("OLD=x").toList] ++ END_MARKER :: [[]])))
    ∧ splitLines (joinLines ([("A=1").toList]
          ++ START_MARKER :: ([("OLD=x").toList] ++ END_MARKER :: [[]])))
        = [("A=1").toList] ++ START_MARKER :: ([("OLD=x").toList]
            ++ END_MARKER :: [[]])
    ∧ splitLines (update_env_content [("N=1").toList]
          (joinLines ([("A=1").toList]
            ++ START_MARKER :: ([("OLD=x").toList] ++ END_MARKER :: [[]]))))
        = [("A=1").toList] ++ START_MARKER :: ([("N=1").toList]
            ++ END_MARKER :: [[]]) :=
  claim10_trailing_newline (by decide) (by decide) (by decide) (by decide)

end G2I
